import Mathlib

/-!
Shallow embedding of the `ll` singly-linked-list library of this
repository (src/ll.h).  The repository ships only the header: every
function body is missing, so each operation is modelled from the
specification, as the doc comments record.  A node chain
`n1 -> n2 -> ... -> nk -> NULL` is embedded as the Lean list
`[d1, d2, ..., dk]` of the nodes' data: the cons cells stand for the
`next` pointers of `ll_node` (src/ll.h lines 58-61), which makes every
chain finite and acyclic by construction.  A node reference (an
`ll_node*`) is embedded as the node's position in the chain, counted
from the head.
-/

set_option autoImplicit false

namespace LLVerif

variable {α : Type} {σ : Type}

/-- The `ll` structure (src/ll.h lines 72-77): size of an element, head
of the node chain, comparison function, optional deallocation function.
The C `compareFun` (lines 18-27) returns an `int`: 0 means the elements
are equal, any other value otherwise.  The C `freeFun` (lines 30-36)
returns `void`, so only its presence (the pointer being non-NULL) and
the sequence of elements it is invoked on are observable; the model
keeps the `Option` and reports invocations in event traces. -/
structure ll (α : Type) where
  data_size : Nat
  head : List α
  compare : α → α → Int
  free : Option (α → Unit)

/-- Modelled from the spec: the body of `ll_new` (declared at src/ll.h
line 95) is missing from the repository.  Spec §4.1 Construct: asserts
`elementSize > 0` and the program aborts on violation (modelled as
`none`); otherwise returns a new, empty list with no nodes. -/
def ll_new (data_size : Nat) (compare_fun : α → α → Int)
    (free_fun : Option (α → Unit)) : Option (ll α) :=
  if data_size = 0 then none
  else some ⟨data_size, [], compare_fun, free_fun⟩

/-- An observable event of destruction: a call of the user-supplied
free function on a node's data, the release of a node's storage, or
the release of the list's own storage. -/
inductive DEvent (α : Type) where
  | callFree (data : α)
  | freeNode (data : α)
  | freeList
  deriving DecidableEq

/-- Modelled from the spec: the body of `ll_destroy` (declared at
src/ll.h line 109) is missing from the repository.  Spec §4.1 Destroy:
releases every node in the chain head-to-tail; for each node, if the
free function is present, invoke it on the element's data before
releasing the node's storage; then release the node itself.  The
recursion returns the trace of events for one chain. -/
def destroyChain (has_free : Bool) : List α → List (DEvent α)
  | [] => []
  | x :: rest =>
      (if has_free then [DEvent.callFree x] else [])
        ++ DEvent.freeNode x :: destroyChain has_free rest

/-- Modelled from the spec (see `destroyChain`): after the chain,
`ll_destroy` finally releases the list's own storage. -/
def ll_destroy (l : ll α) : List (DEvent α) :=
  destroyChain l.free.isSome l.head ++ [DEvent.freeList]

/-- The subsequence of elements a destruction trace invoked the free
function on, in trace order. -/
def freeCalls : List (DEvent α) → List α
  | [] => []
  | DEvent.callFree x :: rest => x :: freeCalls rest
  | DEvent.freeNode _ :: rest => freeCalls rest
  | DEvent.freeList :: rest => freeCalls rest

/-- Modelled from the spec: the body of `ll_add_head` (declared at
src/ll.h line 124) is missing from the repository.  Spec §4.1 AddHead:
allocates one new node holding the element and links it as the new
head, its successor being the previous head. -/
def ll_add_head (l : ll α) (element : α) : ll α :=
  ⟨l.data_size, element :: l.head, l.compare, l.free⟩

/-- Modelled from the spec: the body of `ll_add_after` (declared at
src/ll.h line 139) is missing from the repository, and the declaration
itself lacks the target-node parameter that its own doc comment
(lines 127-138, "inserts it after the `node` node") refers to; spec §9
records this inconsistency and states that the actual signature must
include the anchor node.  Spec §4.1 AddAfter: the new node's successor
becomes the previous successor of the target node; the target node's
successor becomes the new node.  The target node is embedded as its
position in the chain; a position past the end of the chain is the
unchecked "target does not belong to the list" precondition, on which
the model leaves the chain unchanged. -/
def insertAfter (v : α) : List α → Nat → List α
  | [], _ => []
  | x :: rest, 0 => x :: v :: rest
  | x :: rest, i + 1 => x :: insertAfter v rest i

/-- Modelled from the spec (see `insertAfter`). -/
def ll_add_after (l : ll α) (i : Nat) (element : α) : ll α :=
  ⟨l.data_size, insertAfter element l.head i, l.compare, l.free⟩

/-- Modelled from the spec: the body of `ll_size` (declared at
src/ll.h line 149) is missing from the repository.  Spec §4.1 Size:
traverses the full chain from head to the empty terminator, counting
nodes.  This is the mathematical count; `ll_size_c` below refines it
with the C `int` return type of the declaration. -/
def sizeChain : List α → Nat
  | [] => 0
  | _ :: rest => sizeChain rest + 1

/-- Modelled from the spec (see `sizeChain`). -/
def ll_size (l : ll α) : Nat :=
  sizeChain l.head

/-- The largest value of the C `int` type (32-bit, two's complement). -/
def intMax : Int := 2 ^ 31 - 1

/-- One increment of a C `int` counter: incrementing `INT_MAX` is
signed overflow, which is undefined behaviour, modelled as `none`. -/
def incInt (z : Int) : Option Int :=
  if z < intMax then some (z + 1) else none

/-- Modelled from the spec: the counting loop of `ll_size` with the
`int` counter the declaration's return type dictates (src/ll.h
line 149); each node visited increments the counter once. -/
def sizeLoop : List α → Int → Option Int
  | [], z => some z
  | _ :: rest, z => (incInt z).bind (sizeLoop rest)

/-- Modelled from the spec (see `sizeLoop`): `ll_size` as the C `int`
computation, starting the counter at 0. -/
def ll_size_c (l : ll α) : Option Int :=
  sizeLoop l.head 0

/-- Modelled from the spec: the body of `ll_search` (declared at
src/ll.h line 167) is missing from the repository.  Spec §4.1 Search:
traverses from head; for each node, invokes `compare(node.data,
elementPtr)`; the first node for which the result is 0 is returned,
`NULL` (here `none`) if no node matches.  The returned node reference
is embedded as the node's position in the chain. -/
def searchChain (c : α → α → Int) (e : α) : List α → Option Nat
  | [] => none
  | x :: rest =>
      if c x e = 0 then some 0
      else (searchChain c e rest).map (· + 1)

/-- Modelled from the spec (see `searchChain`). -/
def ll_search (l : ll α) (element : α) : Option Nat :=
  searchChain l.compare element l.head

/-- Modelled from the spec: the body of `ll_iter` (declared at
src/ll.h line 178) is missing from the repository.  Spec §4.1 Iterate:
applies the function to each node's element in chain order, head to
tail; the caller-defined side effects are embedded by threading a
state through the calls. -/
def iterGo (fn : α → σ → σ) : List α → σ → σ
  | [], s => s
  | x :: rest, s => iterGo fn rest (fn x s)

/-- Modelled from the spec (see `iterGo`). -/
def ll_iter (l : ll α) (fn : α → σ → σ) (s : σ) : σ :=
  iterGo fn l.head s

/-- The visit order of `ll_iter`: iterating with a function that
records each element it is applied to. -/
def iterTrace (l : ll α) : List α :=
  ll_iter l (fun x s => s ++ [x]) []

/-- Modelled from the spec: the body of `ll_remove` (declared at
src/ll.h line 191) is missing from the repository.  Spec §4.1 Remove:
traverses from head for the first node whose `compare(node.data,
elementPtr)` yields 0; if found it is unlinked (the predecessor's
successor bypasses it, or head advances); if no match, the chain is
left unchanged. -/
def removeChain (c : α → α → Int) (e : α) : List α → List α
  | [] => []
  | x :: rest =>
      if c x e = 0 then rest
      else x :: removeChain c e rest

/-- Modelled from the spec (see `removeChain`). -/
def ll_remove (l : ll α) (element : α) : ll α :=
  ⟨l.data_size, removeChain l.compare element l.head, l.compare, l.free⟩

/-- A sequence of `ll_add_head` calls, first value first. -/
def addAll (l : ll α) (vs : List α) : ll α :=
  vs.foldl ll_add_head l

/-! Fuelled variants of the traversing operations.  Each loop iteration
(one step along a `next` pointer) consumes one unit of fuel; running
out of fuel (`none`) stands for a traversal that does not finish within
the given number of steps.  They make the claim "every traversal
completes within the chain length" statable. -/

/-- The counting loop of `ll_size`, charged one fuel per node. -/
def sizeFuel : Nat → List α → Option Nat
  | _, [] => some 0
  | 0, _ :: _ => none
  | fuel + 1, _ :: rest => (sizeFuel fuel rest).map (· + 1)

/-- The traversal of `ll_search`, charged one fuel per node. -/
def searchFuel (c : α → α → Int) (e : α) : Nat → List α → Option (Option Nat)
  | _, [] => some none
  | 0, _ :: _ => none
  | fuel + 1, x :: rest =>
      if c x e = 0 then some (some 0)
      else (searchFuel c e fuel rest).map (fun r => r.map (· + 1))

/-- The traversal of `ll_iter`, charged one fuel per node. -/
def iterFuel (fn : α → σ → σ) : Nat → List α → σ → Option σ
  | _, [], s => some s
  | 0, _ :: _, _ => none
  | fuel + 1, x :: rest, s => iterFuel fn fuel rest (fn x s)

/-- The traversal of `ll_remove`, charged one fuel per node. -/
def removeFuel (c : α → α → Int) (e : α) : Nat → List α → Option (List α)
  | _, [] => some []
  | 0, _ :: _ => none
  | fuel + 1, x :: rest =>
      if c x e = 0 then some rest
      else (removeFuel c e fuel rest).map (x :: ·)

/-- The chain traversal of `ll_destroy`, charged one fuel per node. -/
def destroyFuel (has_free : Bool) : Nat → List α → Option (List (DEvent α))
  | _, [] => some []
  | 0, _ :: _ => none
  | fuel + 1, x :: rest =>
      (destroyFuel has_free fuel rest).map
        (fun t => (if has_free then [DEvent.callFree x] else [])
          ++ DEvent.freeNode x :: t)

/-! Concrete instances used by the witnesses. -/

/-- A comparison function on `Nat` elements obeying the `compareFun`
contract of src/ll.h lines 18-27. -/
def cmpNat (x y : Nat) : Int :=
  if x = y then 0 else 1

/-- A concrete three-element list. -/
def lEx : ll Nat :=
  ⟨4, [3, 2, 1], cmpNat, none⟩

/-- A concrete chain with a duplicated element. -/
def lDup : ll Nat :=
  ⟨4, [5, 2, 5], cmpNat, none⟩

/-- A concrete list carrying a free function. -/
def lExF : ll Nat :=
  ⟨4, [3, 2, 1], cmpNat, some (fun _ => ())⟩

/-! Byte-level model of element storage, for the element-size
invariant.  The caller's memory at the element pointer is embedded as a
function from byte offsets to byte values; a node's element block as
the list of its bytes. -/

/-- Modelled from the spec: the `memcpy` of spec §4.1 AddHead — the
new node's block receives exactly `elementSize` bytes read from the
caller's pointer. -/
def copyBytes (n : Nat) (src : Nat → Nat) : List Nat :=
  (List.range n).map src

/-- Modelled from the spec (see `copyBytes`): `ll_add_head` at the byte
level — allocate a block of `data_size` bytes, copy the caller's bytes
into it, link it as the new head. -/
def ll_add_head_mem (l : ll (List Nat)) (src : Nat → Nat) : ll (List Nat) :=
  ll_add_head l (copyBytes l.data_size src)

/-- Modelled from the spec (see `copyBytes`): `ll_add_after` at the
byte level. -/
def ll_add_after_mem (l : ll (List Nat)) (i : Nat) (src : Nat → Nat) : ll (List Nat) :=
  ll_add_after l i (copyBytes l.data_size src)

/-- Every node's stored element block occupies exactly `data_size`
bytes (spec §3, invariants). -/
def nodesSized (l : ll (List Nat)) : Prop :=
  ∀ b ∈ l.head, b.length = l.data_size

instance nodesSizedDecidable (l : ll (List Nat)) : Decidable (nodesSized l) :=
  List.decidableBAll (fun b : List Nat => b.length = l.data_size) l.head

/-- A comparison function on byte blocks obeying the `compareFun`
contract. -/
def cmpBytes (x y : List Nat) : Int :=
  if x = y then 0 else 1

/-- A concrete byte-level list: one node of two bytes. -/
def lBytes : ll (List Nat) :=
  ⟨2, [[7, 7]], cmpBytes, none⟩

/-! Helper lemmas shared by the claim theorems. -/

theorem sizeChain_eq_length (xs : List α) : sizeChain xs = xs.length := by
  induction xs with
  | nil => rfl
  | cons x rest ih => simp [sizeChain, ih]

theorem iterGo_record (xs : List α) :
    ∀ s : List α, iterGo (fun x t => t ++ [x]) xs s = s ++ xs := by
  induction xs with
  | nil => intro s; simp [iterGo]
  | cons x rest ih => intro s; simp [iterGo, ih]

theorem iterTrace_eq_head (l : ll α) : iterTrace l = l.head := by
  simpa [iterTrace, ll_iter] using iterGo_record l.head []

theorem addAll_head (l : ll α) (vs : List α) :
    (addAll l vs).head = vs.reverse ++ l.head := by
  induction vs generalizing l with
  | nil => simp [addAll]
  | cons v rest ih =>
      have : addAll l (v :: rest) = addAll (ll_add_head l v) rest := rfl
      rw [this, ih]
      simp [ll_add_head]

theorem ll_new_head_eq_nil (s : Nat) (c : α → α → Int) (f : Option (α → Unit))
    (l : ll α) (h : ll_new s c f = some l) : l.head = [] := by
  by_cases hs : s = 0
  · simp [ll_new, hs] at h
  · simp only [ll_new, hs, if_false, Option.some.injEq] at h
    rw [← h]

/-! The claims. -/

/-- C2.  `Construct` aborts (returns `none`) if and only if
`elementSize` is 0; for every `elementSize s > 0`, with any compare
function and any, possibly absent, free function, it returns a new
empty list whose `Size` is 0. -/
theorem ll_new_construct (s : Nat) (c : α → α → Int) (f : Option (α → Unit)) :
    (ll_new s c f = none ↔ s = 0) ∧
    ∀ l, ll_new s c f = some l → ll_size l = 0 := by
  constructor
  · by_cases hs : s = 0 <;> simp [ll_new, hs]
  · intro l h
    have := ll_new_head_eq_nil s c f l h
    simp [ll_size, this, sizeChain]

/-- Witness for C2 at `s = 4`. -/
theorem ll_new_construct_witness :
    ll_new 4 cmpNat none = some (⟨4, [], cmpNat, none⟩ : ll Nat) ∧
    ll_size (⟨4, [], cmpNat, none⟩ : ll Nat) = 0 :=
  ⟨rfl, (ll_new_construct 4 cmpNat none).2 _ rfl⟩

/-- C3.  For every sequence of `AddHead` calls with values
`v1, …, vk` on a freshly constructed list, `Size` equals `k` and
`Iterate` applies its callback to each node's element exactly once in
head-to-tail chain order, which is `vk, …, v1` (most-recently-added
first): the visit trace is the reversed insertion sequence. -/
theorem add_head_size_iterate (s : Nat) (c : α → α → Int) (f : Option (α → Unit))
    (l : ll α) (vs : List α) (h : ll_new s c f = some l) :
    ll_size (addAll l vs) = vs.length ∧
    iterTrace (addAll l vs) = vs.reverse := by
  have hnil := ll_new_head_eq_nil s c f l h
  constructor
  · simp [ll_size, sizeChain_eq_length, addAll_head, hnil]
  · simp [iterTrace_eq_head, addAll_head, hnil]

/-- Witness for C3: adding 1, 2, 3 to a fresh list gives size 3 and
visit order 3, 2, 1. -/
theorem add_head_size_iterate_witness :
    ll_new 4 cmpNat none = some (⟨4, [], cmpNat, none⟩ : ll Nat) ∧
    ll_size (addAll (⟨4, [], cmpNat, none⟩ : ll Nat) [1, 2, 3]) = 3 ∧
    iterTrace (addAll (⟨4, [], cmpNat, none⟩ : ll Nat) [1, 2, 3]) = [3, 2, 1] :=
  ⟨rfl, (add_head_size_iterate 4 cmpNat none _ [1, 2, 3] rfl).1,
    (add_head_size_iterate 4 cmpNat none _ [1, 2, 3] rfl).2⟩

/-- C6.  Round-trip: `AddHead` with a value `v` followed immediately by
`Remove` with the same value restores the prior `Size` and the prior
iteration order.  The hypothesis `l.compare v v = 0` is the contract of
`compareFun` (src/ll.h lines 18-27: "0 if the elements are equal")
applied to the stored by-value copy of `v`, which equals `v`. -/
theorem add_head_remove_round_trip (l : ll α) (v : α) (h : l.compare v v = 0) :
    ll_size (ll_remove (ll_add_head l v) v) = ll_size l ∧
    iterTrace (ll_remove (ll_add_head l v) v) = iterTrace l := by
  have hchain : removeChain l.compare v (v :: l.head) = l.head := by
    simp [removeChain, h]
  constructor
  · simp [ll_size, ll_remove, ll_add_head, hchain]
  · simp [iterTrace_eq_head, ll_remove, ll_add_head, hchain]

theorem insertAfter_take_drop (v : α) :
    ∀ (xs : List α) (i : Nat), i < xs.length →
      insertAfter v xs i = xs.take (i + 1) ++ v :: xs.drop (i + 1) := by
  intro xs
  induction xs with
  | nil => intro i h; simp at h
  | cons x rest ih =>
      intro i h
      cases i with
      | zero => simp [insertAfter]
      | succ i =>
          have hi : i < rest.length := by simpa using h
          simp [insertAfter, ih i hi]

theorem insertAfter_getElem (v : α) :
    ∀ (xs : List α) (i : Nat), i < xs.length →
      (insertAfter v xs i)[i + 1]? = some v ∧
      (insertAfter v xs i)[i + 2]? = xs[i + 1]? := by
  intro xs
  induction xs with
  | nil => intro i h; simp at h
  | cons x rest ih =>
      intro i h
      cases i with
      | zero => simp [insertAfter]
      | succ i =>
          have hi : i < rest.length := by simpa using h
          have := ih i hi
          simpa [insertAfter] using this

/-- C1.  `AddAfter` with a target node that belongs to the list's chain
(position `i < Size`) inserts exactly one new node immediately after
that node: `Size` grows by 1, the iteration order keeps the first
`i + 1` elements, then visits the new value, then the rest; the new
node sits at position `i + 1` and its successor (position `i + 2`) is
the target's previous successor (old position `i + 1`). -/
theorem ll_add_after_inserts (l : ll α) (i : Nat) (v : α) (h : i < ll_size l) :
    ll_size (ll_add_after l i v) = ll_size l + 1 ∧
    iterTrace (ll_add_after l i v) =
      (iterTrace l).take (i + 1) ++ v :: (iterTrace l).drop (i + 1) ∧
    (ll_add_after l i v).head[i + 1]? = some v ∧
    (ll_add_after l i v).head[i + 2]? = l.head[i + 1]? := by
  have hlen : i < l.head.length := by
    simpa [ll_size, sizeChain_eq_length] using h
  have hins := insertAfter_take_drop v l.head i hlen
  have hget := insertAfter_getElem v l.head i hlen
  refine ⟨?_, ?_, hget.1, hget.2⟩
  · simp only [ll_size, ll_add_after, sizeChain_eq_length, hins,
      List.length_append, List.length_take, List.length_cons, List.length_drop]
    omega
  · simpa [iterTrace_eq_head, ll_add_after] using hins

/-- Witness for C1: inserting 9 after the node at position 1 of a
three-element chain. -/
theorem ll_add_after_inserts_witness :
    1 < ll_size lEx ∧
    ll_size (ll_add_after lEx 1 9) = ll_size lEx + 1 ∧
    (ll_add_after lEx 1 9).head[2]? = some 9 ∧
    (ll_add_after lEx 1 9).head[3]? = lEx.head[2]? :=
  ⟨by decide, (ll_add_after_inserts lEx 1 9 (by decide)).1,
    (ll_add_after_inserts lEx 1 9 (by decide)).2.2.1,
    (ll_add_after_inserts lEx 1 9 (by decide)).2.2.2⟩

theorem searchChain_none_iff (c : α → α → Int) (e : α) (xs : List α) :
    searchChain c e xs = none ↔ ∀ x ∈ xs, c x e ≠ 0 := by
  induction xs with
  | nil => simp [searchChain]
  | cons x rest ih =>
      by_cases hx : c x e = 0
      · simp [searchChain, hx]
      · simp [searchChain, hx, Option.map_eq_none', ih]

theorem searchChain_some (c : α → α → Int) (e : α) :
    ∀ (xs : List α) (i : Nat), searchChain c e xs = some i →
      ∃ x, xs[i]? = some x ∧ c x e = 0 ∧
        ∀ j, j < i → ∀ y, xs[j]? = some y → c y e ≠ 0 := by
  intro xs
  induction xs with
  | nil => intro i h; simp [searchChain] at h
  | cons x rest ih =>
      intro i h
      by_cases hx : c x e = 0
      · simp only [searchChain, hx, if_true, Option.some.injEq] at h
        subst h
        exact ⟨x, by simp, hx, by intro j hj; omega⟩
      · simp only [searchChain, hx, if_false, Option.map_eq_some'] at h
        obtain ⟨i, hi, rfl⟩ := h
        obtain ⟨y, hy, hc, hfirst⟩ := ih i hi
        refine ⟨y, by simpa using hy, hc, ?_⟩
        intro j hj z hz
        cases j with
        | zero =>
            simp only [List.getElem?_cons_zero, Option.some.injEq] at hz
            rw [← hz]
            exact hx
        | succ j =>
            exact hfirst j (by omega) z (by simpa using hz)

theorem searchChain_lt_length (c : α → α → Int) (e : α) :
    ∀ (xs : List α) (i : Nat), searchChain c e xs = some i → i < xs.length := by
  intro xs
  induction xs with
  | nil => intro i h; simp [searchChain] at h
  | cons x rest ih =>
      intro i h
      by_cases hx : c x e = 0
      · simp only [searchChain, hx, if_true, Option.some.injEq] at h
        subst h
        simp
      · simp only [searchChain, hx, if_false, Option.map_eq_some'] at h
        obtain ⟨i, hi, rfl⟩ := h
        have := ih i hi
        simp only [List.length_cons]
        omega

/-- C4.  `Search` returns the first node in head-to-tail order whose
comparison with the searched element yields 0, and the absent sentinel
(`none`) exactly when no node compares equal. -/
theorem ll_search_first_match (l : ll α) (e : α) :
    (ll_search l e = none ↔ ∀ x ∈ l.head, l.compare x e ≠ 0) ∧
    ∀ i, ll_search l e = some i →
      ∃ x, l.head[i]? = some x ∧ l.compare x e = 0 ∧
        ∀ j, j < i → ∀ y, l.head[j]? = some y → l.compare y e ≠ 0 :=
  ⟨searchChain_none_iff l.compare e l.head,
    fun i h => searchChain_some l.compare e l.head i h⟩

/-- Witness for C4: searching 2 in the chain 3, 2, 1 finds position 1,
and all earlier nodes compare unequal. -/
theorem ll_search_first_match_witness :
    ll_search lEx 2 = some 1 ∧
    (∃ x, lEx.head[1]? = some x ∧ lEx.compare x 2 = 0 ∧
      ∀ j, j < 1 → ∀ y, lEx.head[j]? = some y → lEx.compare y 2 ≠ 0) :=
  ⟨by decide, (ll_search_first_match lEx 2).2 1 (by decide)⟩

theorem removeChain_of_none (c : α → α → Int) (e : α) :
    ∀ xs : List α, searchChain c e xs = none → removeChain c e xs = xs := by
  intro xs
  induction xs with
  | nil => intro h; rfl
  | cons x rest ih =>
      intro h
      by_cases hx : c x e = 0
      · simp [searchChain, hx] at h
      · simp only [searchChain, hx, if_false, Option.map_eq_none'] at h
        simp [removeChain, hx, ih h]

theorem removeChain_of_some (c : α → α → Int) (e : α) :
    ∀ (xs : List α) (i : Nat), searchChain c e xs = some i →
      removeChain c e xs = xs.take i ++ xs.drop (i + 1) := by
  intro xs
  induction xs with
  | nil => intro i h; simp [searchChain] at h
  | cons x rest ih =>
      intro i h
      by_cases hx : c x e = 0
      · simp only [searchChain, hx, if_true, Option.some.injEq] at h
        subst h
        simp [removeChain, hx]
      · simp only [searchChain, hx, if_false, Option.map_eq_some'] at h
        obtain ⟨i, hi, rfl⟩ := h
        simp [removeChain, hx, ih i hi]

/-- C5.  When some node matches, `Remove` unlinks exactly the first
(head-closest) match: `Size` drops by 1 and the chain becomes the
nodes before the match followed by the nodes after it, untouched and in
order.  When no node matches, the list is left entirely unchanged. -/
theorem ll_remove_first_match (l : ll α) (e : α) :
    (ll_search l e = none → ll_remove l e = l) ∧
    ∀ i, ll_search l e = some i →
      ll_size (ll_remove l e) + 1 = ll_size l ∧
      (ll_remove l e).head = l.head.take i ++ l.head.drop (i + 1) := by
  constructor
  · intro h
    have hc := removeChain_of_none l.compare e l.head h
    show (⟨l.data_size, removeChain l.compare e l.head, l.compare, l.free⟩ : ll α) = l
    rw [hc]
  · intro i h
    have hlt := searchChain_lt_length l.compare e l.head i h
    have hc := removeChain_of_some l.compare e l.head i h
    refine ⟨?_, hc⟩
    simp only [ll_size, ll_remove, sizeChain_eq_length, hc,
      List.length_append, List.length_take, List.length_drop]
    omega

/-- Witness for C5: removing 5 from the chain 5, 2, 5 removes only the
first occurrence; removing the absent 9 changes nothing. -/
theorem ll_remove_first_match_witness :
    ll_search lDup 9 = none ∧ ll_remove lDup 9 = lDup ∧
    ll_search lDup 5 = some 0 ∧
    ll_size (ll_remove lDup 5) + 1 = ll_size lDup ∧
    (ll_remove lDup 5).head = lDup.head.take 0 ++ lDup.head.drop 1 :=
  ⟨by decide, (ll_remove_first_match lDup 9).1 (by decide), by decide,
    ((ll_remove_first_match lDup 5).2 0 (by decide)).1,
    ((ll_remove_first_match lDup 5).2 0 (by decide)).2⟩

/-- Witness for C6 at a three-element list and `v = 7`. -/
theorem add_head_remove_round_trip_witness :
    lEx.compare 7 7 = 0 ∧
    ll_size (ll_remove (ll_add_head lEx 7) 7) = ll_size lEx ∧
    iterTrace (ll_remove (ll_add_head lEx 7) 7) = iterTrace lEx :=
  ⟨by decide, (add_head_remove_round_trip lEx 7 (by decide)).1,
    (add_head_remove_round_trip lEx 7 (by decide)).2⟩

theorem destroyChain_flat (xs : List α) :
    destroyChain true xs =
      xs.flatMap (fun x => [DEvent.callFree x, DEvent.freeNode x]) := by
  induction xs with
  | nil => rfl
  | cons x rest ih => simp [destroyChain, ih]

theorem freeCalls_destroyChain (xs : List α) :
    freeCalls (destroyChain true xs ++ [DEvent.freeList]) = xs := by
  induction xs with
  | nil => rfl
  | cons x rest ih => simp [destroyChain, freeCalls, ih]

/-- C7.  When the free function is present, `Destroy` on a chain of `n`
nodes invokes it exactly `n` times, once per element, in chain order
head to tail — the trace of invocations is the chain itself — and each
invocation occurs immediately before the release of the corresponding
node's storage, as the flattened event trace shows. -/
theorem ll_destroy_free_calls (l : ll α) (h : l.free.isSome = true) :
    freeCalls (ll_destroy l) = l.head ∧
    (freeCalls (ll_destroy l)).length = ll_size l ∧
    ll_destroy l =
      l.head.flatMap (fun x => [DEvent.callFree x, DEvent.freeNode x])
        ++ [DEvent.freeList] := by
  have hd : ll_destroy l = destroyChain true l.head ++ [DEvent.freeList] := by
    simp [ll_destroy, h]
  refine ⟨?_, ?_, ?_⟩
  · rw [hd, freeCalls_destroyChain]
  · rw [hd, freeCalls_destroyChain, ll_size, sizeChain_eq_length]
  · rw [hd, destroyChain_flat]

/-- Witness for C7 on a three-element list with a free function. -/
theorem ll_destroy_free_calls_witness :
    lExF.free.isSome = true ∧
    freeCalls (ll_destroy lExF) = lExF.head ∧
    (freeCalls (ll_destroy lExF)).length = ll_size lExF :=
  ⟨rfl, (ll_destroy_free_calls lExF rfl).1, (ll_destroy_free_calls lExF rfl).2.1⟩

theorem length_copyBytes (n : Nat) (src : Nat → Nat) :
    (copyBytes n src).length = n := by
  simp [copyBytes]

theorem mem_insertAfter (v y : α) :
    ∀ (xs : List α) (i : Nat), y ∈ insertAfter v xs i → y = v ∨ y ∈ xs := by
  intro xs
  induction xs with
  | nil => intro i h; simp [insertAfter] at h
  | cons x rest ih =>
      intro i h
      cases i with
      | zero =>
          simp only [insertAfter, List.mem_cons] at h
          rcases h with h | h | h
          · exact Or.inr (by simp [h])
          · exact Or.inl h
          · exact Or.inr (by simp [h])
      | succ i =>
          simp only [insertAfter, List.mem_cons] at h
          rcases h with h | h
          · exact Or.inr (by simp [h])
          · rcases ih i h with h | h
            · exact Or.inl h
            · exact Or.inr (by simp [h])

theorem mem_removeChain (c : α → α → Int) (e y : α) :
    ∀ xs : List α, y ∈ removeChain c e xs → y ∈ xs := by
  intro xs
  induction xs with
  | nil => intro h; simp [removeChain] at h
  | cons x rest ih =>
      intro h
      by_cases hx : c x e = 0
      · simp only [removeChain, hx, if_true] at h
        exact List.mem_cons_of_mem x h
      · simp only [removeChain, hx, if_false, List.mem_cons] at h
        rcases h with h | h
        · simp [h]
        · exact List.mem_cons_of_mem x (ih h)

/-- C8.  Every node holds a by-value copy of its element occupying
exactly `elementSize` bytes: a fresh list satisfies the invariant
vacuously, `AddHead` copies exactly `data_size` bytes from the caller's
memory into the new head node, and the invariant is preserved by
`AddHead`, `AddAfter` and `Remove`. -/
theorem element_size_invariant (l : ll (List Nat)) (src : Nat → Nat) (i : Nat)
    (e : List Nat) (h : nodesSized l) :
    (∀ (s : Nat) (c : List Nat → List Nat → Int) (f : Option (List Nat → Unit))
        (l0 : ll (List Nat)), ll_new s c f = some l0 → nodesSized l0) ∧
    (ll_add_head_mem l src).head.head? = some (copyBytes l.data_size src) ∧
    (copyBytes l.data_size src).length = l.data_size ∧
    nodesSized (ll_add_head_mem l src) ∧
    nodesSized (ll_add_after_mem l i src) ∧
    nodesSized (ll_remove l e) := by
  refine ⟨?_, rfl, length_copyBytes l.data_size src, ?_, ?_, ?_⟩
  · intro s c f l0 h0
    intro b hb
    rw [ll_new_head_eq_nil s c f l0 h0] at hb
    simp at hb
  · intro b hb
    simp only [ll_add_head_mem, ll_add_head, List.mem_cons] at hb
    rcases hb with hb | hb
    · rw [hb]
      exact length_copyBytes l.data_size src
    · exact h b hb
  · intro b hb
    simp only [ll_add_after_mem, ll_add_after] at hb
    rcases mem_insertAfter (copyBytes l.data_size src) b l.head i hb with hb | hb
    · rw [hb]
      exact length_copyBytes l.data_size src
    · exact h b hb
  · intro b hb
    simp only [ll_remove] at hb
    exact h b (mem_removeChain l.compare e b l.head hb)

/-- Witness for C8 on a concrete byte-level list, adding a copy of the
identity memory. -/
theorem element_size_invariant_witness :
    nodesSized lBytes ∧
    nodesSized (ll_add_head_mem lBytes (fun k => k)) ∧
    (ll_add_head_mem lBytes (fun k => k)).head.head? =
      some (copyBytes lBytes.data_size (fun k => k)) :=
  ⟨by decide,
    (element_size_invariant lBytes (fun k => k) 0 [] (by decide)).2.2.2.1,
    (element_size_invariant lBytes (fun k => k) 0 [] (by decide)).2.1⟩

theorem sizeFuel_complete :
    ∀ (xs : List α) (fuel : Nat), xs.length ≤ fuel →
      sizeFuel fuel xs = some (sizeChain xs) := by
  intro xs
  induction xs with
  | nil => intro fuel h; cases fuel <;> rfl
  | cons x rest ih =>
      intro fuel h
      cases fuel with
      | zero => simp at h
      | succ fuel =>
          have : rest.length ≤ fuel := by simpa using h
          simp [sizeFuel, ih fuel this, sizeChain]

theorem searchFuel_complete (c : α → α → Int) (e : α) :
    ∀ (xs : List α) (fuel : Nat), xs.length ≤ fuel →
      searchFuel c e fuel xs = some (searchChain c e xs) := by
  intro xs
  induction xs with
  | nil => intro fuel h; cases fuel <;> rfl
  | cons x rest ih =>
      intro fuel h
      cases fuel with
      | zero => simp at h
      | succ fuel =>
          have hr : rest.length ≤ fuel := by simpa using h
          by_cases hx : c x e = 0
          · simp [searchFuel, searchChain, hx]
          · simp [searchFuel, searchChain, hx, ih fuel hr]

theorem iterFuel_complete (fn : α → σ → σ) :
    ∀ (xs : List α) (fuel : Nat) (s : σ), xs.length ≤ fuel →
      iterFuel fn fuel xs s = some (iterGo fn xs s) := by
  intro xs
  induction xs with
  | nil => intro fuel s h; cases fuel <;> rfl
  | cons x rest ih =>
      intro fuel s h
      cases fuel with
      | zero => simp at h
      | succ fuel =>
          have hr : rest.length ≤ fuel := by simpa using h
          simp [iterFuel, iterGo, ih fuel (fn x s) hr]

theorem removeFuel_complete (c : α → α → Int) (e : α) :
    ∀ (xs : List α) (fuel : Nat), xs.length ≤ fuel →
      removeFuel c e fuel xs = some (removeChain c e xs) := by
  intro xs
  induction xs with
  | nil => intro fuel h; cases fuel <;> rfl
  | cons x rest ih =>
      intro fuel h
      cases fuel with
      | zero => simp at h
      | succ fuel =>
          have hr : rest.length ≤ fuel := by simpa using h
          by_cases hx : c x e = 0
          · simp [removeFuel, removeChain, hx]
          · simp [removeFuel, removeChain, hx, ih fuel hr]

theorem destroyFuel_complete (has_free : Bool) :
    ∀ (xs : List α) (fuel : Nat), xs.length ≤ fuel →
      destroyFuel has_free fuel xs = some (destroyChain has_free xs) := by
  intro xs
  induction xs with
  | nil => intro fuel h; cases fuel <;> rfl
  | cons x rest ih =>
      intro fuel h
      cases fuel with
      | zero => simp at h
      | succ fuel =>
          have hr : rest.length ≤ fuel := by simpa using h
          simp [destroyFuel, destroyChain, ih fuel hr]

theorem insertAfter_length_le (v : α) :
    ∀ (xs : List α) (i : Nat), (insertAfter v xs i).length ≤ xs.length + 1 := by
  intro xs
  induction xs with
  | nil => intro i; simp [insertAfter]
  | cons x rest ih =>
      intro i
      cases i with
      | zero => simp [insertAfter]
      | succ i =>
          have := ih i
          simp only [insertAfter, List.length_cons]
          omega

theorem removeChain_length_le (c : α → α → Int) (e : α) :
    ∀ xs : List α, (removeChain c e xs).length ≤ xs.length := by
  intro xs
  induction xs with
  | nil => simp [removeChain]
  | cons x rest ih =>
      by_cases hx : c x e = 0
      · simp only [removeChain, hx, if_true, List.length_cons]
        omega
      · simp only [removeChain, hx, if_false, List.length_cons]
        omega

/-- C9.  Every traversing operation completes within a number of steps
equal to the chain length: with that much fuel, the fuelled loops of
size, search, iteration, removal and destruction all return (`some`)
the unfuelled result.  Every operation moreover keeps the chain finite:
the resulting chain length is bounded as stated, so the bound applies
again to the next operation.  (Chains are Lean lists here, so
acyclicity and finiteness themselves hold by construction.) -/
theorem operations_terminate (l : ll α) (fuel : Nat) (h : ll_size l ≤ fuel) :
    sizeFuel fuel l.head = some (ll_size l) ∧
    (∀ e, searchFuel l.compare e fuel l.head = some (ll_search l e)) ∧
    (∀ (β : Type) (fn : α → β → β) (s : β),
      iterFuel fn fuel l.head s = some (ll_iter l fn s)) ∧
    (∀ e, removeFuel l.compare e fuel l.head = some ((ll_remove l e).head)) ∧
    destroyFuel l.free.isSome fuel l.head
      = some (destroyChain l.free.isSome l.head) ∧
    (∀ v, ll_size (ll_add_head l v) = ll_size l + 1) ∧
    (∀ i v, ll_size (ll_add_after l i v) ≤ ll_size l + 1) ∧
    (∀ e, ll_size (ll_remove l e) ≤ ll_size l) := by
  have hlen : l.head.length ≤ fuel := by
    simpa [ll_size, sizeChain_eq_length] using h
  refine ⟨?_, ?_, ?_, ?_, ?_, ?_, ?_, ?_⟩
  · rw [sizeFuel_complete l.head fuel hlen, ll_size]
  · intro e
    exact searchFuel_complete l.compare e l.head fuel hlen
  · intro β fn s
    exact iterFuel_complete fn l.head fuel s hlen
  · intro e
    exact removeFuel_complete l.compare e l.head fuel hlen
  · exact destroyFuel_complete l.free.isSome l.head fuel hlen
  · intro v
    simp [ll_size, ll_add_head, sizeChain]
  · intro i v
    have := insertAfter_length_le v l.head i
    simp only [ll_size, ll_add_after, sizeChain_eq_length]
    omega
  · intro e
    have := removeChain_length_le l.compare e l.head
    simp only [ll_size, ll_remove, sizeChain_eq_length]
    omega

/-- Witness for C9 at a three-element list with fuel 3. -/
theorem operations_terminate_witness :
    ll_size lEx ≤ 3 ∧
    sizeFuel 3 lEx.head = some (ll_size lEx) ∧
    searchFuel lEx.compare 2 3 lEx.head = some (ll_search lEx 2) ∧
    removeFuel lEx.compare 2 3 lEx.head = some ((ll_remove lEx 2).head) :=
  ⟨by decide, (operations_terminate lEx 3 (by decide)).1,
    (operations_terminate lEx 3 (by decide)).2.1 2,
    (operations_terminate lEx 3 (by decide)).2.2.2.1 2⟩

theorem sizeLoop_complete :
    ∀ (xs : List α) (z : Int), 0 ≤ z → z + xs.length ≤ intMax →
      sizeLoop xs z = some (z + xs.length) := by
  intro xs
  induction xs with
  | nil => intro z hz hle; simp [sizeLoop]
  | cons x rest ih =>
      intro z hz hle
      have hlt : z < intMax := by
        simp only [List.length_cons] at hle
        push_cast at hle
        omega
      have hle2 : z + 1 + rest.length ≤ intMax := by
        simp only [List.length_cons] at hle
        push_cast at hle ⊢
        omega
      have := ih (z + 1) (by omega) hle2
      simp only [sizeLoop, incInt, hlt, if_true, Option.some_bind, this,
        List.length_cons, Option.some.injEq]
      push_cast
      ring

theorem sizeLoop_overflow :
    ∀ (xs : List α) (z : Int), 0 ≤ z → z ≤ intMax → intMax < z + xs.length →
      sizeLoop xs z = none := by
  intro xs
  induction xs with
  | nil =>
      intro z hz hle hgt
      simp only [List.length_nil] at hgt
      omega
  | cons x rest ih =>
      intro z hz hle hgt
      by_cases hlt : z < intMax
      · have := ih (z + 1) (by omega) (by omega) (by
          simp only [List.length_cons] at hgt
          push_cast at hgt ⊢
          omega)
        simp [sizeLoop, incInt, hlt, this]
      · simp [sizeLoop, incInt, hlt]

/-- C10.  `Size` returns its count through the C `int` return type of
the declaration: whenever the number of nodes fits in a signed 32-bit
`int` the returned value is that number and is nonnegative; a count
beyond `INT_MAX` is not representable — the counting loop overflows
(undefined behaviour, modelled as `none`). -/
theorem ll_size_int_faithful (l : ll α) :
    (ll_size l ≤ 2 ^ 31 - 1 →
      ll_size_c l = some ((ll_size l : Nat) : Int) ∧
      (0 : Int) ≤ ((ll_size l : Nat) : Int)) ∧
    (2 ^ 31 - 1 < ll_size l → ll_size_c l = none) := by
  have hsz : ll_size l = l.head.length := by
    simp [ll_size, sizeChain_eq_length]
  constructor
  · intro h
    have hle : (0 : Int) + l.head.length ≤ intMax := by
      rw [hsz] at h
      simp only [intMax]
      push_cast
      omega
    have := sizeLoop_complete l.head 0 le_rfl hle
    constructor
    · rw [ll_size_c, this, hsz]
      simp
    · exact Int.natCast_nonneg _
  · intro h
    have hgt : intMax < (0 : Int) + l.head.length := by
      rw [hsz] at h
      simp only [intMax]
      push_cast
      omega
    have hle : (0 : Int) ≤ intMax := by
      simp [intMax]
    exact sizeLoop_overflow l.head 0 le_rfl hle hgt

/-- Witness for C10 at a three-element list. -/
theorem ll_size_int_faithful_witness :
    ll_size lEx ≤ 2 ^ 31 - 1 ∧
    ll_size_c lEx = some ((ll_size lEx : Nat) : Int) :=
  ⟨by decide, ((ll_size_int_faithful lEx).1 (by decide)).1⟩

end LLVerif
